import Mathlib

/-!
Verification of the virtual-scroll core of
`projects/listine/src/lib/listtine-virtual/variable-virtual-scroll/listine-virtual-scroll.component.ts`.

The algorithmic core consists of four pieces of the component:
`updateItemTops` (prefix-sum offset table builder, lines 152-160),
`getItemTop` (safe offset lookup, lines 166-168),
`onScroll` (the visible-range resolver, lines 171-194, restricted to its
range computation: the scroll position is taken as a parameter rather than
read from the DOM, and the trailing render/measure/emit calls are outside
the range computation), and
`measureItemHeights` (height reconciliation, lines 207-218).

JavaScript numbers are modelled as `Int`: every value that flows through the
core (estimated heights of 50, DOM `offsetHeight` measurements, scroll
positions, prefix sums of these) is integral.
-/

/-- Result of `updateItemTops`: the rebuilt `itemTops` table together with
`totalContentHeight`, the value of the running accumulator after the loop. -/
structure TopsResult where
  itemTops : List Int
  totalContentHeight : Int
deriving Repr, DecidableEq

/-- The `for (const height of this.itemHeights)` loop of `updateItemTops`:
pushes the running `top` before adding the current height; the second
component is the final accumulator value. -/
def updateItemTopsAux : List Int → Int → TopsResult
  | [], top => ⟨[], top⟩
  | h :: rest, top =>
    let r := updateItemTopsAux rest (top + h)
    ⟨top :: r.itemTops, r.totalContentHeight⟩

/-- `updateItemTops` (source lines 152-160): rebuilds `itemTops` from
`itemHeights` starting from `top = 0` and stores the final running total in
`totalContentHeight`. -/
def updateItemTops (itemHeights : List Int) : TopsResult :=
  updateItemTopsAux itemHeights 0

/-- `getItemTop` (source lines 166-168): `return this.itemTops[index] || 0;`.
A negative or past-the-end index reads `undefined` in JavaScript and
`undefined || 0` is `0`; a stored `0` is falsy and also yields `0`, which
coincides with returning the stored value. -/
def getItemTop (itemTops : List Int) (index : Int) : Int :=
  if 0 ≤ index then itemTops.getD index.toNat 0 else 0

/-- The first `while` loop of `onScroll` (source lines 175-180):
`while (start < this.items.length && this.getItemTop(start + 1) < scrollTop) start++;`.
`fuel` bounds the remaining iterations; since the guard requires
`start < n` and `start` increases by one per iteration, `n - start` many
iterations always suffice, so the fuel never runs out on the calls made by
`startScan` (`startScanAux_fuel` below makes this exact). -/
def startScanAux (itemTops : List Int) (n : Nat) (scrollTop : Int) : Nat → Nat → Nat
  | 0, start => start
  | fuel + 1, start =>
    if start < n ∧ getItemTop itemTops ((start : Int) + 1) < scrollTop then
      startScanAux itemTops n scrollTop fuel (start + 1)
    else start

/-- The start-index scan of `onScroll`, beginning at `start = 0`. -/
def startScan (itemTops : List Int) (n : Nat) (scrollTop : Int) : Nat :=
  startScanAux itemTops n scrollTop n 0

/-- The second `while` loop of `onScroll` (source lines 182-185):
`while (end < this.items.length && this.getItemTop(end) < viewportBottom) end++;`,
with the same fuel discipline as `startScanAux`. -/
def endScanAux (itemTops : List Int) (n : Nat) (viewportBottom : Int) : Nat → Nat → Nat
  | 0, e => e
  | fuel + 1, e =>
    if e < n ∧ getItemTop itemTops (e : Int) < viewportBottom then
      endScanAux itemTops n viewportBottom fuel (e + 1)
    else e

/-- The end-index scan of `onScroll`, beginning at `let end = start`. -/
def endScan (itemTops : List Int) (n : Nat) (viewportBottom : Int) (start : Nat) : Nat :=
  endScanAux itemTops n viewportBottom (n - start) start

/-- The pair (`visibleStart`, `visibleEnd`) that `onScroll` assigns. -/
structure VisibleRange where
  visibleStart : Int
  visibleEnd : Int
deriving Repr, DecidableEq

/-- The range computation of `onScroll` (source lines 171-194):
`viewportBottom = scrollTop + viewportHeight`, the two scan loops, then
`visibleStart = Math.max(0, start - buffer)` and
`visibleEnd = Math.min(this.items.length, end + buffer)`. -/
def onScroll (itemTops : List Int) (itemsLength : Nat)
    (scrollTop viewportHeight buffer : Int) : VisibleRange :=
  let viewportBottom := scrollTop + viewportHeight
  let start := startScan itemTops itemsLength scrollTop
  let endIdx := endScan itemTops itemsLength viewportBottom start
  ⟨max 0 ((start : Int) - buffer), min (itemsLength : Int) ((endIdx : Int) + buffer)⟩

/-- A single element write `this.itemHeights[index] = height`. For an index
at or past the end, JavaScript extends the array; positions strictly between
the old length and `index` become holes reading `undefined`, modelled here
with the filler `0`. No claim below evaluates a filler entry: reconciliation
writes the contiguous indices `visibleStart + idx`, so fillers can appear
only strictly below `visibleStart`, where no later comparison of the same
batch ever reads. -/
def writeHeight (heights : List Int) (index : Nat) (v : Int) : List Int :=
  if index < heights.length then heights.set index v
  else heights ++ List.replicate (index - heights.length) 0 ++ [v]

/-- The `forEach` loop of `measureItemHeights` (source lines 208-215): for
the `idx`-th rendered element with measured height `m`, computes
`index = visibleStart + idx` and, when the stored height differs
(`this.itemHeights[index] !== height` — a fresh measurement compared against
a missing entry always differs), overwrites it. The `Bool` records whether
the overwrite branch ran at least once; in the source that branch also
registers the element with the `ResizeObserver`, and the specification
surfaces the same fact as the `changed` result of
`reconcileMeasuredHeights`. -/
def measureLoop : List Int → Nat → Nat → List Int → Bool → List Int × Bool
  | heights, _, _, [], changed => (heights, changed)
  | heights, visibleStart, idx, m :: rest, changed =>
    if heights[visibleStart + idx]? ≠ some m then
      measureLoop (writeHeight heights (visibleStart + idx) m) visibleStart (idx + 1) rest true
    else
      measureLoop heights visibleStart (idx + 1) rest changed

/-- `measureItemHeights` (source lines 207-218), restricted to its effect on
the height store: the measured heights of the rendered elements are the
`measurements` list, whose `idx`-th entry belongs to absolute item index
`visibleStart + idx`. The concluding `updateItemTops` call of the source is
composed explicitly in the theorems that need the rebuilt offsets. -/
def measureItemHeights (heights : List Int) (visibleStart : Nat)
    (measurements : List Int) : List Int × Bool :=
  measureLoop heights visibleStart 0 measurements false

/-! ## Characterization of the offset table builder -/

theorem updateItemTopsAux_length (H : List Int) (t : Int) :
    (updateItemTopsAux H t).itemTops.length = H.length := by
  induction H generalizing t with
  | nil => rfl
  | cons h rest ih => simp [updateItemTopsAux, ih]

theorem updateItemTopsAux_total (H : List Int) (t : Int) :
    (updateItemTopsAux H t).totalContentHeight = t + H.sum := by
  induction H generalizing t with
  | nil => simp [updateItemTopsAux]
  | cons h rest ih => simp [updateItemTopsAux, ih]; ring

theorem updateItemTopsAux_get (H : List Int) (t : Int) (i : Nat) (hi : i < H.length) :
    (updateItemTopsAux H t).itemTops[i]? = some (t + (H.take i).sum) := by
  induction H generalizing t i with
  | nil => simp at hi
  | cons h rest ih =>
    cases i with
    | zero => simp [updateItemTopsAux]
    | succ j =>
      have hj : j < rest.length := by simpa using hi
      simp only [updateItemTopsAux, List.getElem?_cons_succ]
      rw [ih (t + h) j hj]
      simp only [List.take_succ_cons, List.sum_cons]
      ring_nf

theorem itemTops_length (H : List Int) :
    (updateItemTops H).itemTops.length = H.length :=
  updateItemTopsAux_length H 0

theorem itemTops_get (H : List Int) (i : Nat) (hi : i < H.length) :
    (updateItemTops H).itemTops[i]? = some ((H.take i).sum) := by
  have := updateItemTopsAux_get H 0 i hi
  simpa using this

theorem totalContentHeight_eq (H : List Int) :
    (updateItemTops H).totalContentHeight = H.sum := by
  have := updateItemTopsAux_total H 0
  simpa using this

/-! ## Facts about `getItemTop` -/

theorem getItemTop_natCast (tops : List Int) (i : Nat) :
    getItemTop tops (i : Int) = tops.getD i 0 := by
  simp [getItemTop]

theorem getItemTop_of_ge (tops : List Int) (i : Int) (hi : (tops.length : Int) ≤ i) :
    getItemTop tops i = 0 := by
  have h0 : 0 ≤ i := le_trans (by positivity) hi
  have : tops.length ≤ i.toNat := by omega
  simp [getItemTop, h0, List.getD_eq_getElem?_getD, List.getElem?_eq_none this]

theorem getItemTop_of_neg (tops : List Int) (i : Int) (hi : i < 0) :
    getItemTop tops i = 0 := by
  simp [getItemTop, not_le.mpr hi]

/-- On the table built from heights `H`, the in-range entry `i` is the prefix
sum of the first `i` heights. -/
theorem getItemTop_updateItemTops (H : List Int) (i : Nat) (hi : i < H.length) :
    getItemTop (updateItemTops H).itemTops (i : Int) = (H.take i).sum := by
  rw [getItemTop_natCast]
  rw [List.getD_eq_getElem?_getD, itemTops_get H i hi]
  rfl

theorem take_sum_mono (H : List Int) (hH : ∀ x ∈ H, 0 ≤ x) (i j : Nat) (hij : i ≤ j) :
    (H.take i).sum ≤ (H.take j).sum := by
  have hsplit : H.take j = H.take i ++ (H.drop i).take (j - i) := by
    rw [← List.take_add]
    congr 1
    omega
  rw [hsplit, List.sum_append]
  have hnn : 0 ≤ ((H.drop i).take (j - i)).sum := by
    apply List.sum_nonneg
    intro x hx
    exact hH x (List.mem_of_mem_drop (List.mem_of_mem_take hx))
  omega

theorem take_sum_nonneg (H : List Int) (hH : ∀ x ∈ H, 0 ≤ x) (i : Nat) :
    0 ≤ (H.take i).sum := by
  apply List.sum_nonneg
  intro x hx
  exact hH x (List.mem_of_mem_take hx)

/-! ## Characterization of the two scan loops -/

theorem startScanAux_ge (tops : List Int) (n : Nat) (t : Int) (fuel s : Nat) :
    s ≤ startScanAux tops n t fuel s := by
  induction fuel generalizing s with
  | zero => simp [startScanAux]
  | succ fuel ih =>
    simp only [startScanAux]
    split
    · exact le_trans (Nat.le_succ s) (ih (s + 1))
    · exact le_refl s

theorem startScanAux_le (tops : List Int) (n : Nat) (t : Int) (fuel s : Nat)
    (hs : s ≤ n) : startScanAux tops n t fuel s ≤ n := by
  induction fuel generalizing s with
  | zero => simpa [startScanAux]
  | succ fuel ih =>
    simp only [startScanAux]
    split
    · next hcond => exact ih (s + 1) hcond.1
    · exact hs

theorem startScanAux_covers (tops : List Int) (n : Nat) (t : Int) (fuel s : Nat) :
    ∀ u, s ≤ u → u < startScanAux tops n t fuel s →
      u < n ∧ getItemTop tops ((u : Int) + 1) < t := by
  induction fuel generalizing s with
  | zero =>
    intro u hu hur
    simp only [startScanAux] at hur
    omega
  | succ fuel ih =>
    intro u hu hur
    simp only [startScanAux] at hur
    by_cases hcond : s < n ∧ getItemTop tops ((s : Int) + 1) < t
    · rw [if_pos hcond] at hur
      rcases Nat.eq_or_lt_of_le hu with heq | hlt
      · exact heq ▸ hcond
      · exact ih (s + 1) u hlt hur
    · rw [if_neg hcond] at hur
      omega

theorem startScanAux_stops (tops : List Int) (n : Nat) (t : Int) (fuel s : Nat)
    (hfuel : n ≤ s + fuel) :
    ¬(startScanAux tops n t fuel s < n ∧
      getItemTop tops ((startScanAux tops n t fuel s : Int) + 1) < t) := by
  induction fuel generalizing s with
  | zero =>
    simp only [startScanAux]
    omega
  | succ fuel ih =>
    simp only [startScanAux]
    by_cases hcond : s < n ∧ getItemTop tops ((s : Int) + 1) < t
    · rw [if_pos hcond]
      exact ih (s + 1) (by omega)
    · rw [if_neg hcond]
      exact hcond

theorem endScanAux_ge (tops : List Int) (n : Nat) (b : Int) (fuel e : Nat) :
    e ≤ endScanAux tops n b fuel e := by
  induction fuel generalizing e with
  | zero => simp [endScanAux]
  | succ fuel ih =>
    simp only [endScanAux]
    split
    · exact le_trans (Nat.le_succ e) (ih (e + 1))
    · exact le_refl e

theorem endScanAux_le (tops : List Int) (n : Nat) (b : Int) (fuel e : Nat)
    (he : e ≤ n) : endScanAux tops n b fuel e ≤ n := by
  induction fuel generalizing e with
  | zero => simpa [endScanAux]
  | succ fuel ih =>
    simp only [endScanAux]
    split
    · next hcond => exact ih (e + 1) hcond.1
    · exact he

theorem endScanAux_covers (tops : List Int) (n : Nat) (b : Int) (fuel e : Nat) :
    ∀ u, e ≤ u → u < endScanAux tops n b fuel e →
      u < n ∧ getItemTop tops (u : Int) < b := by
  induction fuel generalizing e with
  | zero =>
    intro u hu hur
    simp only [endScanAux] at hur
    omega
  | succ fuel ih =>
    intro u hu hur
    simp only [endScanAux] at hur
    by_cases hcond : e < n ∧ getItemTop tops (e : Int) < b
    · rw [if_pos hcond] at hur
      rcases Nat.eq_or_lt_of_le hu with heq | hlt
      · exact heq ▸ hcond
      · exact ih (e + 1) u hlt hur
    · rw [if_neg hcond] at hur
      omega

theorem endScanAux_stops (tops : List Int) (n : Nat) (b : Int) (fuel e : Nat)
    (hfuel : n ≤ e + fuel) :
    ¬(endScanAux tops n b fuel e < n ∧
      getItemTop tops ((endScanAux tops n b fuel e : Int)) < b) := by
  induction fuel generalizing e with
  | zero =>
    simp only [endScanAux]
    omega
  | succ fuel ih =>
    simp only [endScanAux]
    by_cases hcond : e < n ∧ getItemTop tops (e : Int) < b
    · rw [if_pos hcond]
      exact ih (e + 1) (by omega)
    · rw [if_neg hcond]
      exact hcond

theorem startScan_le (tops : List Int) (n : Nat) (t : Int) :
    startScan tops n t ≤ n :=
  startScanAux_le tops n t n 0 (Nat.zero_le n)

theorem startScan_covers (tops : List Int) (n : Nat) (t : Int) :
    ∀ u, u < startScan tops n t → u < n ∧ getItemTop tops ((u : Int) + 1) < t :=
  fun u hu => startScanAux_covers tops n t n 0 u (Nat.zero_le u) hu

theorem startScan_stops (tops : List Int) (n : Nat) (t : Int) :
    ¬(startScan tops n t < n ∧
      getItemTop tops ((startScan tops n t : Int) + 1) < t) :=
  startScanAux_stops tops n t n 0 (by omega)

theorem endScan_ge (tops : List Int) (n : Nat) (b : Int) (s : Nat) :
    s ≤ endScan tops n b s :=
  endScanAux_ge tops n b (n - s) s

theorem endScan_le (tops : List Int) (n : Nat) (b : Int) (s : Nat) (hs : s ≤ n) :
    endScan tops n b s ≤ n :=
  endScanAux_le tops n b (n - s) s hs

theorem endScan_covers (tops : List Int) (n : Nat) (b : Int) (s : Nat) :
    ∀ u, s ≤ u → u < endScan tops n b s → u < n ∧ getItemTop tops (u : Int) < b :=
  endScanAux_covers tops n b (n - s) s

theorem endScan_stops (tops : List Int) (n : Nat) (b : Int) (s : Nat) :
    ¬(endScan tops n b s < n ∧ getItemTop tops ((endScan tops n b s : Int)) < b) :=
  endScanAux_stops tops n b (n - s) s (by omega)

theorem itemTops_getD (H : List Int) (i : Nat) (hi : i < H.length) :
    (updateItemTops H).itemTops.getD i 0 = (H.take i).sum := by
  rw [List.getD_eq_getElem?_getD, itemTops_get H i hi]
  rfl

theorem take_succ_sum (H : List Int) (i : Nat) (hi : i < H.length) :
    (H.take (i + 1)).sum = (H.take i).sum + H.getD i 0 := by
  rw [List.take_succ, List.sum_append, List.getD_eq_getElem?_getD,
    List.getElem?_eq_getElem hi]
  simp

/-! ## Claim theorems about the builder, the lookup, and range validity -/

/-- C3: for every finite height sequence `H`, `updateItemTops` produces an
offset table of the same length with `offsets[0] = 0` and
`offsets[i] = offsets[i-1] + H[i-1]` for every `i ≥ 1`, and sets
`totalContentHeight = sum H` exactly; the empty sequence yields the empty
offset table and total `0`. -/
theorem offset_table_builder_correct (H : List Int) :
    (updateItemTops H).itemTops.length = H.length ∧
    (updateItemTops H).totalContentHeight = H.sum ∧
    (0 < H.length → (updateItemTops H).itemTops.getD 0 0 = 0) ∧
    (∀ i : Nat, i + 1 < H.length →
      (updateItemTops H).itemTops.getD (i + 1) 0 =
        (updateItemTops H).itemTops.getD i 0 + H.getD i 0) ∧
    (H = [] → (updateItemTops H).itemTops = [] ∧
      (updateItemTops H).totalContentHeight = 0) := by
  refine ⟨itemTops_length H, totalContentHeight_eq H, ?_, ?_, ?_⟩
  · intro h
    rw [itemTops_getD H 0 h]
    simp
  · intro i hi
    rw [itemTops_getD H (i + 1) hi, itemTops_getD H i (by omega),
      take_succ_sum H i (by omega)]
  · intro h
    subst h
    exact ⟨rfl, rfl⟩

theorem offset_table_builder_correct_w :
    0 < ([50, 30, 20] : List Int).length ∧
    (updateItemTops [50, 30, 20]).itemTops.getD 0 0 = 0 ∧
    (updateItemTops [50, 30, 20]).itemTops.getD 1 0 =
      (updateItemTops [50, 30, 20]).itemTops.getD 0 0 +
        ([50, 30, 20] : List Int).getD 0 0 :=
  ⟨by decide, (offset_table_builder_correct [50, 30, 20]).2.2.1 (by decide),
    (offset_table_builder_correct [50, 30, 20]).2.2.2.1 0 (by decide)⟩

/-- C7: `getItemTop` returns `0` for every index outside
`[0, itemTops.length)` — negative or at/past the end — and returns the
stored offset for every in-range index. -/
theorem getItemTop_safe_lookup (tops : List Int) (index : Int) :
    ((index < 0 ∨ (tops.length : Int) ≤ index) → getItemTop tops index = 0) ∧
    ((0 ≤ index ∧ index < (tops.length : Int)) →
      tops[index.toNat]? = some (getItemTop tops index)) := by
  constructor
  · rintro (h | h)
    · exact getItemTop_of_neg tops index h
    · exact getItemTop_of_ge tops index h
  · rintro ⟨h0, hlt⟩
    have hl : index.toNat < tops.length := by omega
    simp [getItemTop, h0, List.getD_eq_getElem?_getD, List.getElem?_eq_getElem hl]

theorem getItemTop_safe_lookup_w :
    (((-1 : Int) < 0 ∨ (([0, 50, 100] : List Int).length : Int) ≤ -1) →
      getItemTop [0, 50, 100] (-1) = 0) ∧
    getItemTop [0, 50, 100] (-1) = 0 ∧
    getItemTop [0, 50, 100] 3 = 0 ∧
    ([0, 50, 100] : List Int)[(1 : Int).toNat]? = some (getItemTop [0, 50, 100] 1) :=
  ⟨(getItemTop_safe_lookup [0, 50, 100] (-1)).1,
    (getItemTop_safe_lookup [0, 50, 100] (-1)).1 (Or.inl (by decide)),
    (getItemTop_safe_lookup [0, 50, 100] 3).1 (Or.inr (by decide)),
    (getItemTop_safe_lookup [0, 50, 100] 1).2 ⟨by decide, by decide⟩⟩

/-- C6: after every run of `onScroll` with integer `buffer ≥ 0` and
`scrollTop ≥ 0`, the resulting pair satisfies
`0 ≤ visibleStart ≤ visibleEnd ≤ itemsLength`. -/
theorem visibleRange_valid (tops : List Int) (n : Nat) (scrollTop vh buffer : Int)
    (hbuf : 0 ≤ buffer) (_hscroll : 0 ≤ scrollTop) :
    0 ≤ (onScroll tops n scrollTop vh buffer).visibleStart ∧
    (onScroll tops n scrollTop vh buffer).visibleStart ≤
      (onScroll tops n scrollTop vh buffer).visibleEnd ∧
    (onScroll tops n scrollTop vh buffer).visibleEnd ≤ (n : Int) := by
  have hs := startScan_le tops n scrollTop
  have hse := endScan_ge tops n (scrollTop + vh) (startScan tops n scrollTop)
  have he := endScan_le tops n (scrollTop + vh) (startScan tops n scrollTop) hs
  simp only [onScroll]
  omega

theorem visibleRange_valid_w :
    (0 : Int) ≤ 5 ∧ (0 : Int) ≤ 10 ∧
    (0 ≤ (onScroll [0, 50, 100] 3 10 400 5).visibleStart ∧
      (onScroll [0, 50, 100] 3 10 400 5).visibleStart ≤
        (onScroll [0, 50, 100] 3 10 400 5).visibleEnd ∧
      (onScroll [0, 50, 100] 3 10 400 5).visibleEnd ≤ (3 : Int)) :=
  ⟨by decide, by decide, visibleRange_valid [0, 50, 100] 3 10 400 5 (by decide) (by decide)⟩

/-! ## Monotonicity of the resolver in the scroll position -/

theorem startScan_mono (tops : List Int) (n : Nat) (t t' : Int) (ht : t ≤ t') :
    startScan tops n t ≤ startScan tops n t' := by
  by_contra hcon
  push_neg at hcon
  have hcov := startScan_covers tops n t (startScan tops n t') hcon
  exact startScan_stops tops n t' ⟨hcov.1, lt_of_lt_of_le hcov.2 ht⟩

theorem endScan_mono (tops : List Int) (n : Nat) (b b' : Int) (s s' : Nat)
    (hb : b ≤ b') (hs : s ≤ s') :
    endScan tops n b s ≤ endScan tops n b' s' := by
  by_contra hcon
  push_neg at hcon
  have hge := endScan_ge tops n b' s'
  have hcov := endScan_covers tops n b s (endScan tops n b' s')
    (le_trans hs hge) hcon
  exact endScan_stops tops n b' s' ⟨hcov.1, lt_of_lt_of_le hcov.2 hb⟩

/-- C4: for a fixed offset table built from non-negative heights and fixed
item count, viewport height and buffer, both `visibleStart` and `visibleEnd`
computed by `onScroll` are non-decreasing in `scrollTop`. -/
theorem resolver_monotone_in_scrollTop (H : List Int) (_hH : ∀ x ∈ H, 0 ≤ x)
    (vh buffer t t' : Int) (ht : t ≤ t') :
    (onScroll (updateItemTops H).itemTops H.length t vh buffer).visibleStart ≤
      (onScroll (updateItemTops H).itemTops H.length t' vh buffer).visibleStart ∧
    (onScroll (updateItemTops H).itemTops H.length t vh buffer).visibleEnd ≤
      (onScroll (updateItemTops H).itemTops H.length t' vh buffer).visibleEnd := by
  have h1 := startScan_mono (updateItemTops H).itemTops H.length t t' ht
  have h2 := endScan_mono (updateItemTops H).itemTops H.length (t + vh) (t' + vh)
    (startScan (updateItemTops H).itemTops H.length t)
    (startScan (updateItemTops H).itemTops H.length t') (by omega) h1
  simp only [onScroll]
  omega

theorem resolver_monotone_in_scrollTop_w :
    (∀ x ∈ ([50, 30, 20] : List Int), 0 ≤ x) ∧ (10 : Int) ≤ 60 ∧
    ((onScroll (updateItemTops [50, 30, 20]).itemTops 3 10 40 1).visibleStart ≤
      (onScroll (updateItemTops [50, 30, 20]).itemTops 3 60 40 1).visibleStart ∧
     (onScroll (updateItemTops [50, 30, 20]).itemTops 3 10 40 1).visibleEnd ≤
      (onScroll (updateItemTops [50, 30, 20]).itemTops 3 60 40 1).visibleEnd) :=
  ⟨by decide, by decide,
    resolver_monotone_in_scrollTop [50, 30, 20] (by decide) 40 1 10 60 (by decide)⟩

/-! ## Saturation of the start scan past the last item's top -/

/-- When the scroll position is strictly above every in-range offset, the
start scan runs off the end of the table: the lookup at index `n` is out of
range and yields `0 < scrollTop`, so the loop stops only at `start = n`. -/
theorem startScan_saturates (H : List Int) (hH : ∀ x ∈ H, 0 ≤ x)
    (hne : 0 < H.length) (t : Int) (ht : (H.take (H.length - 1)).sum < t) :
    startScan (updateItemTops H).itemTops H.length t = H.length := by
  set tops := (updateItemTops H).itemTops with htops
  set r := startScan tops H.length t with hr
  have hrle : r ≤ H.length := startScan_le tops H.length t
  by_contra hcon
  have hrlt : r < H.length := by omega
  have hstop := startScan_stops tops H.length t
  rw [← hr] at hstop
  push_neg at hstop
  have hge := hstop hrlt
  rcases Nat.lt_or_ge (r + 1) H.length with hcase | hcase
  · have : getItemTop tops ((r : Int) + 1) = (H.take (r + 1)).sum := by
      have := getItemTop_updateItemTops H (r + 1) hcase
      rw [← htops] at this
      rw [← this]
      congr 1
    rw [this] at hge
    have hmono := take_sum_mono H hH (r + 1) (H.length - 1) (by omega)
    omega
  · have hreq : r + 1 = H.length := by omega
    have hlen : (tops.length : Int) ≤ (r : Int) + 1 := by
      rw [htops, itemTops_length]
      omega
    rw [getItemTop_of_ge tops _ hlen] at hge
    have hnn := take_sum_nonneg H hH (H.length - 1)
    omega

/-- C9 (implicit): for every non-empty item list with strictly positive
heights and every `scrollTop` strictly greater than the last item's top
offset — including positions still inside the last item's extent — the
pre-buffer start index computed by `onScroll` equals the item count, because
the loop's lookup at index `itemCount` is out of range and returns `0`;
consequently, with `buffer = 0` and
`offsets[itemCount-1] < scrollTop < totalContentHeight`, the resolved range
is `(itemCount, itemCount)`, i.e. empty. -/
theorem start_scan_saturation_past_last_top (H : List Int)
    (hpos : ∀ x ∈ H, 0 < x) (hne : 0 < H.length) (scrollTop vh : Int)
    (hlow : getItemTop (updateItemTops H).itemTops ((H.length : Int) - 1) < scrollTop)
    (_hhigh : scrollTop < (updateItemTops H).totalContentHeight) :
    startScan (updateItemTops H).itemTops H.length scrollTop = H.length ∧
    onScroll (updateItemTops H).itemTops H.length scrollTop vh 0 =
      ⟨(H.length : Int), (H.length : Int)⟩ := by
  have hH : ∀ x ∈ H, 0 ≤ x := fun x hx => le_of_lt (hpos x hx)
  have hcast : ((H.length : Int) - 1) = ((H.length - 1 : Nat) : Int) := by omega
  have hlow' : (H.take (H.length - 1)).sum < scrollTop := by
    rw [hcast, getItemTop_updateItemTops H (H.length - 1) (by omega)] at hlow
    exact hlow
  have hstart := startScan_saturates H hH hne scrollTop hlow'
  refine ⟨hstart, ?_⟩
  simp only [onScroll, hstart]
  have hend : endScan (updateItemTops H).itemTops H.length (scrollTop + vh)
      H.length = H.length := by
    simp [endScan, endScanAux]
  rw [hend]
  simp only [VisibleRange.mk.injEq]
  omega

theorem start_scan_saturation_past_last_top_w :
    (∀ x ∈ ([50] : List Int), 0 < x) ∧ 0 < ([50] : List Int).length ∧
    getItemTop (updateItemTops [50]).itemTops ((([50] : List Int).length : Int) - 1) < 10 ∧
    (10 : Int) < (updateItemTops [50]).totalContentHeight ∧
    (startScan (updateItemTops [50]).itemTops ([50] : List Int).length 10 =
        ([50] : List Int).length ∧
      onScroll (updateItemTops [50]).itemTops ([50] : List Int).length 10 400 0 =
        ⟨(([50] : List Int).length : Int), (([50] : List Int).length : Int)⟩) :=
  ⟨by decide, by decide, by decide, by decide,
    start_scan_saturation_past_last_top [50] (by decide) (by decide) 10 400
      (by decide) (by decide)⟩

/-- C5: for every non-empty item list with strictly positive heights and
integer `buffer ≥ 0`, invoking the resolver with
`scrollTop = totalContentHeight` yields `visibleEnd = itemCount` and
`visibleStart = max 0 (itemCount - buffer)`. -/
theorem scrolled_past_end_clamps (H : List Int) (hpos : ∀ x ∈ H, 0 < x)
    (hne : 0 < H.length) (vh buffer : Int) (hbuf : 0 ≤ buffer) :
    (onScroll (updateItemTops H).itemTops H.length
      (updateItemTops H).totalContentHeight vh buffer).visibleEnd = (H.length : Int) ∧
    (onScroll (updateItemTops H).itemTops H.length
      (updateItemTops H).totalContentHeight vh buffer).visibleStart =
        max 0 ((H.length : Int) - buffer) := by
  have hH : ∀ x ∈ H, 0 ≤ x := fun x hx => le_of_lt (hpos x hx)
  have hsum : (H.take (H.length - 1)).sum < H.sum := by
    have htake := take_succ_sum H (H.length - 1) (by omega)
    have hfull : H.length - 1 + 1 = H.length := by omega
    rw [hfull, List.take_length] at htake
    have hmem : H.getD (H.length - 1) 0 ∈ H := by
      rw [List.getD_eq_getElem?_getD, List.getElem?_eq_getElem (by omega : H.length - 1 < H.length)]
      exact List.getElem_mem _
    have := hpos _ hmem
    omega
  have hstart := startScan_saturates H hH hne (updateItemTops H).totalContentHeight
    (by rw [totalContentHeight_eq]; exact hsum)
  simp only [onScroll, hstart]
  have hend : endScan (updateItemTops H).itemTops H.length
      ((updateItemTops H).totalContentHeight + vh) H.length = H.length := by
    simp [endScan, endScanAux]
  rw [hend]
  refine ⟨by omega, ?_⟩
  trivial

theorem scrolled_past_end_clamps_w :
    (∀ x ∈ ([50, 30] : List Int), 0 < x) ∧ 0 < ([50, 30] : List Int).length ∧
    (0 : Int) ≤ 5 ∧
    ((onScroll (updateItemTops [50, 30]).itemTops 2
        (updateItemTops [50, 30]).totalContentHeight 400 5).visibleEnd = (2 : Int) ∧
      (onScroll (updateItemTops [50, 30]).itemTops 2
        (updateItemTops [50, 30]).totalContentHeight 400 5).visibleStart =
          max 0 ((2 : Int) - 5)) :=
  ⟨by decide, by decide, by decide,
    scrolled_past_end_clamps [50, 30] (by decide) (by decide) 400 5 (by decide)⟩

/-! ## Resolver coverage -/

/-- C1 counterexample: with the single-item height sequence `[50]`,
`scrollTop = 10`, `viewportHeight = 400`, `buffer = 0` — a valid input whose
item `0` has extent `[0, 50)` overlapping the viewport `[10, 410)` — the
resolved range is `(1, 1)` and does not contain item `0`, refuting the
claimed unconditional coverage. -/
theorem resolver_coverage_cex :
    ((0 : Int) ≤ 10 ∧ (0 : Int) < 400 ∧ (0 : Int) ≤ 0) ∧
    (∀ x ∈ ([50] : List Int), 0 ≤ x) ∧
    (getItemTop (updateItemTops [50]).itemTops 0 < 10 + 400 ∧
      (10 : Int) < getItemTop (updateItemTops [50]).itemTops 0 +
        ([50] : List Int).getD 0 0) ∧
    ¬((onScroll (updateItemTops [50]).itemTops 1 10 400 0).visibleStart ≤ 0 ∧
      (0 : Int) < (onScroll (updateItemTops [50]).itemTops 1 10 400 0).visibleEnd) := by
  decide

/-- C1 (amended): for every offset table built by `updateItemTops` from
non-negative heights and every valid input (`scrollTop ≥ 0`,
`viewportHeight > 0`, integer `buffer ≥ 0`) with `scrollTop` not strictly
above the last item's top offset, the range computed by `onScroll` contains
every item index `i` whose extent `[offsets[i], offsets[i] + H[i])` overlaps
the viewport `[scrollTop, scrollTop + viewportHeight)`. (Without the
last-item-top restriction the start scan can run past the end and drop the
last item; see the counterexample and C9.) -/
theorem resolver_covers_overlapping (H : List Int) (hH : ∀ x ∈ H, 0 ≤ x)
    (scrollTop vh buffer : Int) (_hscroll : 0 ≤ scrollTop) (_hv : 0 < vh)
    (hbuf : 0 ≤ buffer)
    (hclamp : scrollTop ≤ getItemTop (updateItemTops H).itemTops ((H.length : Int) - 1))
    (i : Nat) (hi : i < H.length)
    (hleft : getItemTop (updateItemTops H).itemTops (i : Int) < scrollTop + vh)
    (hright : scrollTop <
      getItemTop (updateItemTops H).itemTops (i : Int) + H.getD i 0) :
    (onScroll (updateItemTops H).itemTops H.length scrollTop vh buffer).visibleStart ≤
      (i : Int) ∧
    (i : Int) <
      (onScroll (updateItemTops H).itemTops H.length scrollTop vh buffer).visibleEnd := by
  set tops := (updateItemTops H).itemTops with htops
  set n := H.length with hn
  set s0 := startScan tops n scrollTop with hs0
  set e0 := endScan tops n (scrollTop + vh) s0 with he0
  have hn1 : 0 < n := by omega
  have htopslen : tops.length = n := by rw [htops, hn, itemTops_length]
  -- Step A: the start scan stops strictly before n.
  have hA : s0 < n := by
    by_contra hcon
    have hle := startScan_le tops n scrollTop
    rw [← hs0] at hle
    have hs0n : s0 = n := by omega
    rcases Nat.lt_or_ge n 2 with hsmall | hbig
    · have hn1' : n = 1 := by omega
      have hcov := startScan_covers tops n scrollTop 0 (by omega)
      have hzero : getItemTop tops ((0 : Nat) + 1 : Int) = 0 := by
        apply getItemTop_of_ge
        rw [htopslen]
        omega
      rw [hzero] at hcov
      have hG0 : getItemTop tops ((n : Int) - 1) = 0 := by
        have : ((n : Int) - 1) = ((0 : Nat) : Int) := by omega
        rw [this, htops, getItemTop_updateItemTops H 0 (by omega)]
        simp
      rw [hG0] at hclamp
      omega
    · have hcov := startScan_covers tops n scrollTop (n - 2) (by omega)
      have hidx : ((n - 2 : Nat) : Int) + 1 = (n : Int) - 1 := by omega
      rw [hidx] at hcov
      omega
  -- Step B: the start scan does not pass item i.
  have hB : s0 ≤ i := by
    by_contra hcon
    push_neg at hcon
    have hcov := startScan_covers tops n scrollTop i hcon
    have hin : i + 1 < n := by omega
    have hGi1 : getItemTop tops ((i : Int) + 1) = (H.take (i + 1)).sum := by
      have := getItemTop_updateItemTops H (i + 1) (by omega)
      rw [← htops] at this
      rw [← this]
      congr 1
    have hGi : getItemTop tops (i : Int) = (H.take i).sum := by
      rw [htops, hn] at *
      exact getItemTop_updateItemTops H i hi
    rw [hGi1, take_succ_sum H i hi] at hcov
    rw [hGi] at hright
    omega
  -- Step C: the end scan passes item i.
  have hC : i < e0 := by
    by_contra hcon
    push_neg at hcon
    have hstop := endScan_stops tops n (scrollTop + vh) s0
    rw [← he0] at hstop
    push_neg at hstop
    have hge := hstop (by omega)
    have hGe : getItemTop tops (e0 : Int) = (H.take e0).sum := by
      rw [htops, hn] at *
      exact getItemTop_updateItemTops H e0 (by omega)
    have hGi : getItemTop tops (i : Int) = (H.take i).sum := by
      rw [htops, hn] at *
      exact getItemTop_updateItemTops H i hi
    have hmono := take_sum_mono H hH e0 i hcon
    rw [hGe] at hge
    rw [hGi] at hleft
    omega
  simp only [onScroll, ← hs0, ← he0, ← htops, ← hn]
  omega

theorem resolver_covers_overlapping_w :
    (∀ x ∈ ([50, 30] : List Int), 0 ≤ x) ∧
    ((0 : Int) ≤ 10 ∧ (0 : Int) < 40 ∧ (0 : Int) ≤ 0) ∧
    (10 : Int) ≤ getItemTop (updateItemTops [50, 30]).itemTops
      ((([50, 30] : List Int).length : Int) - 1) ∧
    (getItemTop (updateItemTops [50, 30]).itemTops ((0 : Nat) : Int) < 10 + 40 ∧
      (10 : Int) < getItemTop (updateItemTops [50, 30]).itemTops ((0 : Nat) : Int) +
        ([50, 30] : List Int).getD 0 0) ∧
    ((onScroll (updateItemTops [50, 30]).itemTops ([50, 30] : List Int).length
        10 40 0).visibleStart ≤ ((0 : Nat) : Int) ∧
      ((0 : Nat) : Int) <
        (onScroll (updateItemTops [50, 30]).itemTops ([50, 30] : List Int).length
          10 40 0).visibleEnd) :=
  ⟨by decide, ⟨by decide, by decide, by decide⟩, by decide, ⟨by decide, by decide⟩,
    resolver_covers_overlapping [50, 30] (by decide) 10 40 0 (by decide) (by decide)
      (by decide) (by decide) 0 (by decide) (by decide) (by decide)⟩

/-! ## Height reconciliation -/

theorem writeHeight_length_of_lt (l : List Int) (i : Nat) (v : Int)
    (h : i < l.length) : (writeHeight l i v).length = l.length := by
  simp [writeHeight, h]

theorem writeHeight_get_self (l : List Int) (i : Nat) (v : Int) :
    (writeHeight l i v)[i]? = some v := by
  unfold writeHeight
  split
  · next h => exact List.getElem?_set_self h
  · next h =>
    push_neg at h
    have hlen : (l ++ List.replicate (i - l.length) 0).length = i := by
      simp
      omega
    rw [List.getElem?_append_right (by omega), hlen]
    simp

theorem writeHeight_get_below (l : List Int) (i j : Nat) (v x : Int)
    (hij : j < i) (hx : l[j]? = some x) : (writeHeight l i v)[j]? = some x := by
  unfold writeHeight
  split
  · rw [List.getElem?_set_ne (by omega)]
    exact hx
  · have hjl : j < l.length := by
      by_contra hc
      rw [List.getElem?_eq_none (by omega)] at hx
      exact Option.noConfusion hx
    rw [List.getElem?_append_left (by simp; omega)]
    rw [List.getElem?_append_left hjl]
    exact hx

theorem measureLoop_length (heights : List Int) (vs idx : Nat) (ms : List Int)
    (c : Bool) (hin : ∀ j < ms.length, vs + idx + j < heights.length) :
    (measureLoop heights vs idx ms c).1.length = heights.length := by
  induction ms generalizing heights idx c with
  | nil => rfl
  | cons m rest ih =>
    have h0 : vs + idx < heights.length := by
      have := hin 0 (by simp)
      omega
    simp only [measureLoop]
    split
    · rw [ih (writeHeight heights (vs + idx) m) (idx + 1) true ?_,
        writeHeight_length_of_lt heights (vs + idx) m h0]
      intro j hj
      rw [writeHeight_length_of_lt heights (vs + idx) m h0]
      have := hin (j + 1) (by simpa using hj)
      omega
    · apply ih
      intro j hj
      have := hin (j + 1) (by simpa using hj)
      omega

theorem measureLoop_preserves_below (heights : List Int) (vs idx : Nat)
    (ms : List Int) (c : Bool) (p : Nat) (x : Int) (hp : p < vs + idx)
    (hx : heights[p]? = some x) : (measureLoop heights vs idx ms c).1[p]? = some x := by
  induction ms generalizing heights idx c with
  | nil => exact hx
  | cons m rest ih =>
    simp only [measureLoop]
    split
    · exact ih (writeHeight heights (vs + idx) m) (idx + 1) true (by omega)
        (writeHeight_get_below heights (vs + idx) p m x hp hx)
    · exact ih heights (idx + 1) c (by omega) hx

theorem measureLoop_writes (heights : List Int) (vs idx : Nat) (ms : List Int)
    (c : Bool) :
    ∀ j < ms.length, (measureLoop heights vs idx ms c).1[vs + idx + j]? =
      some (ms.getD j 0) := by
  induction ms generalizing heights idx c with
  | nil =>
    intro j hj
    simp at hj
  | cons m rest ih =>
    intro j hj
    cases j with
    | zero =>
      simp only [measureLoop, Nat.add_zero, List.getD_cons_zero]
      split
      · exact measureLoop_preserves_below (writeHeight heights (vs + idx) m)
          vs (idx + 1) rest true (vs + idx) m (by omega)
          (writeHeight_get_self heights (vs + idx) m)
      · next h =>
        push_neg at h
        exact measureLoop_preserves_below heights vs (idx + 1) rest c
          (vs + idx) m (by omega) h
    | succ k =>
      have hk : k < rest.length := by simpa using hj
      have harith : vs + idx + (k + 1) = vs + (idx + 1) + k := by omega
      simp only [measureLoop, harith, List.getD_cons_succ]
      split
      · exact ih (writeHeight heights (vs + idx) m) (idx + 1) true k hk
      · exact ih heights (idx + 1) c k hk

theorem measureLoop_noop (heights : List Int) (vs idx : Nat) (ms : List Int)
    (c : Bool) (hmatch : ∀ j < ms.length, heights[vs + idx + j]? = some (ms.getD j 0)) :
    measureLoop heights vs idx ms c = (heights, c) := by
  induction ms generalizing idx with
  | nil => rfl
  | cons m rest ih =>
    have h0 : heights[vs + idx]? = some m := by
      have := hmatch 0 (by simp)
      simpa using this
    simp only [measureLoop, h0]
    rw [if_neg (by simp)]
    apply ih
    intro j hj
    have := hmatch (j + 1) (by simpa using hj)
    have harith : vs + idx + (j + 1) = vs + (idx + 1) + j := by omega
    rw [harith] at this
    simpa using this

/-- C2: height reconciliation is an idempotent correction — a batch whose
measurements all agree with the stored heights leaves the height store
unchanged and reports no change, and re-running `measureItemHeights` a
second time with identical measurements produces `changed = false` (and an
unchanged store). -/
theorem reconcile_idempotent (H : List Int) (vs : Nat) (ms : List Int) :
    ((∀ j < ms.length, H[vs + j]? = some (ms.getD j 0)) →
      measureItemHeights H vs ms = (H, false)) ∧
    measureItemHeights (measureItemHeights H vs ms).1 vs ms =
      ((measureItemHeights H vs ms).1, false) := by
  constructor
  · intro h
    apply measureLoop_noop
    intro j hj
    have := h j hj
    simpa using this
  · apply measureLoop_noop
    intro j hj
    have := measureLoop_writes H vs 0 ms false j hj
    simpa using this

theorem reconcile_idempotent_w :
    measureItemHeights [50, 50] 0 [50, 50] = ([50, 50], false) ∧
    measureItemHeights (measureItemHeights [50, 50] 0 [80, 30]).1 0 [80, 30] =
      ((measureItemHeights [50, 50] 0 [80, 30]).1, false) :=
  ⟨(reconcile_idempotent [50, 50] 0 [50, 50]).1 (by decide),
    (reconcile_idempotent [50, 50] 0 [80, 30]).2⟩

/-- C10 (implicit): reconciliation performs no bounds check — when every
absolute index `visibleStart + idx` of the batch lies within the height
store, the store's length is preserved, but the batch
`visibleStart = 1, measurements = [80]` against the one-entry store `[50]`
extends the store to length `2`, breaking the one-height-per-item
correspondence with a one-item list. -/
theorem heightStore_length_reconcile (H : List Int) (vs : Nat) (ms : List Int) :
    ((∀ j < ms.length, vs + j < H.length) →
      (measureItemHeights H vs ms).1.length = H.length) ∧
    (measureItemHeights [50] 1 [80]).1.length = 2 ∧
    ¬(measureItemHeights [50] 1 [80]).1.length = ([50] : List Int).length := by
  refine ⟨?_, by decide, by decide⟩
  intro h
  apply measureLoop_length
  intro j hj
  have := h j hj
  omega

theorem heightStore_length_reconcile_w :
    (∀ j < ([80, 30] : List Int).length, 0 + j < ([50, 50] : List Int).length) ∧
    (measureItemHeights [50, 50] 0 [80, 30]).1.length = ([50, 50] : List Int).length :=
  ⟨by decide, (heightStore_length_reconcile [50, 50] 0 [80, 30]).1 (by decide)⟩

/-- The effect of a single in-range measurement: item `k` is overwritten
when its stored height differs; otherwise nothing happens. -/
theorem measureItemHeights_single (H : List Int) (k : Nat) (v : Int)
    (hk : k < H.length) :
    (measureItemHeights H k [v]).1 = if H[k]? = some v then H else H.set k v := by
  by_cases h : H[k]? = some v
  · simp [measureItemHeights, measureLoop, h]
  · simp [measureItemHeights, measureLoop, h, writeHeight, hk]
    split <;> rfl

theorem take_set_of_le (l : List Int) (k i : Nat) (v : Int) (h : i ≤ k) :
    (l.set k v).take i = l.take i := by
  induction l generalizing k i with
  | nil => simp
  | cons a tl ih =>
    cases k with
    | zero =>
      have : i = 0 := by omega
      simp [this]
    | succ k' =>
      cases i with
      | zero => simp
      | succ i' =>
        show (a :: tl.set k' v).take (i' + 1) = (a :: tl).take (i' + 1)
        simp only [List.take_succ_cons]
        rw [ih k' i' (by omega)]

/-- C8: reconciling a measured height for item `k` followed by the offset
rebuild changes only `HeightStore[k]` and the offsets of items strictly
after `k`; offsets at indices `≤ k` are unchanged. In particular, starting
from uniform estimates of `50`, measuring item `0`'s height as `80` changes
`getItemTop` at index `1` from `50` to `80` while `getItemTop` at index `0`
remains `0`. -/
theorem single_correction_frame (H : List Int) (k : Nat) (v : Int)
    (hk : k < H.length) :
    (∀ j, j ≠ k → (measureItemHeights H k [v]).1[j]? = H[j]?) ∧
    (∀ i, i ≤ k →
      (updateItemTops (measureItemHeights H k [v]).1).itemTops[i]? =
        (updateItemTops H).itemTops[i]?) ∧
    getItemTop (updateItemTops (measureItemHeights [50, 50, 50] 0 [80]).1).itemTops 1 = 80 ∧
    getItemTop (updateItemTops ([50, 50, 50] : List Int)).itemTops 1 = 50 ∧
    getItemTop (updateItemTops (measureItemHeights [50, 50, 50] 0 [80]).1).itemTops 0 = 0 := by
  rw [measureItemHeights_single H k v hk]
  refine ⟨?_, ?_, by decide, by decide, by decide⟩
  · intro j hj
    split
    · rfl
    · exact List.getElem?_set_ne (by omega)
  · intro i hi
    have hlen : (if H[k]? = some v then H else H.set k v).length = H.length := by
      split
      · rfl
      · exact List.length_set ..
    rcases Nat.lt_or_ge i H.length with hilt | hige
    · rw [itemTops_get _ i (by omega), itemTops_get H i hilt]
      split
      · rfl
      · rw [take_set_of_le H k i v hi]
    · rw [List.getElem?_eq_none, List.getElem?_eq_none]
      · rw [itemTops_length]
        omega
      · rw [itemTops_length, hlen]
        omega

theorem single_correction_frame_w :
    0 < ([50, 50, 50] : List Int).length ∧
    (measureItemHeights [50, 50, 50] 0 [80]).1[1]? = ([50, 50, 50] : List Int)[1]? ∧
    (updateItemTops (measureItemHeights [50, 50, 50] 0 [80]).1).itemTops[0]? =
      (updateItemTops ([50, 50, 50] : List Int)).itemTops[0]? ∧
    getItemTop (updateItemTops (measureItemHeights [50, 50, 50] 0 [80]).1).itemTops 1 = 80 ∧
    getItemTop (updateItemTops ([50, 50, 50] : List Int)).itemTops 1 = 50 ∧
    getItemTop (updateItemTops (measureItemHeights [50, 50, 50] 0 [80]).1).itemTops 0 = 0 :=
  ⟨by decide,
    (single_correction_frame [50, 50, 50] 0 80 (by decide)).1 1 (by decide),
    (single_correction_frame [50, 50, 50] 0 80 (by decide)).2.1 0 (by decide),
    (single_correction_frame [50, 50, 50] 0 80 (by decide)).2.2.1,
    (single_correction_frame [50, 50, 50] 0 80 (by decide)).2.2.2.1,
    (single_correction_frame [50, 50, 50] 0 80 (by decide)).2.2.2.2⟩

